import Mathlib

/-!
Verification of the fsm_variant finite-state-machine engine.

The repository ships two near-identical header-only engines,
src/vfsm/vfsm.hpp (namespace vfsm) and src/fsm_variant.hpp (namespace
fsm_variant).  Both drive a machine holding a std::variant of zero-data
state tags and a user table-context object whose operator()() returns an
overload set of handlers.  We embed the engine shallowly:

* States, events and the mutable context data become type parameters
  sigma, epsilon, gamma.  A state tag carries no data, so state identity
  (the C++ alternative type) is plain equality on sigma.
* The compile-time overload set is a `Table`: which handler or hook is
  callable for a given key is fixed at compile time in C++, so each
  lookup field returns an `Option`; the resolved callable itself reads
  and rewrites the context data (the fields of the C++ table object).
* A handler is either one that produces a state (the C++ branches where
  the handler result is a state or a variant of states) or a pure
  side effect (the void-returning branch).
* The side-effecting hook calls of the C++ code are rendered by explicit
  state passing plus an event log: every engine operation returns the
  list of hook invocations it performed, in execution order.
-/

/-- Lifecycle selector tags, `struct OnEnter {}; struct OnExit {};`. -/
inductive LifecycleTag where
  | onEnter
  | onExit
deriving DecidableEq, Repr

/-- One recorded hook invocation.  The constructor records which of the
four callable shapes was selected: the three-argument form receiving both
states, or the two-argument form receiving only its own state. -/
inductive HookCall (σ : Type u) where
  | exitBoth (leaving arriving : σ)
  | exitOne (leaving : σ)
  | enterBoth (arriving leaving : σ)
  | enterOne (arriving : σ)
deriving DecidableEq, Repr

/-- True for the exit-hook records. -/
def HookCall.isExit : HookCall σ → Bool
  | .exitBoth _ _ => true
  | .exitOne _ => true
  | .enterBoth _ _ => false
  | .enterOne _ => false

/-- True for the enter-hook records. -/
def HookCall.isEnter : HookCall σ → Bool
  | .exitBoth _ _ => false
  | .exitOne _ => false
  | .enterBoth _ _ => true
  | .enterOne _ => true

/-- A resolved transition handler.  `toState` covers the C++ branches in
which the handler result is a single state or a variant of candidate
states: invoked on the context data it yields the produced state and the
updated context.  `effect` covers the void-returning handler branch: a
pure side effect on the context, no state-change signal. -/
inductive Handler (σ : Type u) (γ : Type v) where
  | toState (f : γ → σ × γ)
  | effect (f : γ → γ)

/-- The compile-time registration carried by the C++ table-context's
overload set.  Every field answers the corresponding `requires { ... }`
probe of the engine: `none` means the call is ill-formed (no overload
matches), `some` is the overload that C++ overload resolution selects,
already specialized to the key, with exact registrations outranking
wildcard (`auto`) ones as C++ does.

* `exactEvent s e` : the handler registered for exactly (state s, event e);
* `anyEvent e`     : the wildcard-source handler `(auto, E)` for event e;
* `onPoll s`       : the poll handler keyed by state s alone;
* `onExitBoth l a` : the hook callable as (leaving l, arriving a, OnExit);
* `onExitOne l`    : the hook callable as (leaving l, OnExit);
* `onEnterBoth a l`: the hook callable as (arriving a, leaving l, OnEnter);
* `onEnterOne a`   : the hook callable as (arriving a, OnEnter).
-/
structure Table (σ : Type u) (ε : Type w) (γ : Type v) where
  exactEvent : σ → ε → Option (Handler σ γ)
  anyEvent : ε → Option (Handler σ γ)
  onPoll : σ → Option (Handler σ γ)
  onExitBoth : σ → σ → Option (γ → γ)
  onExitOne : σ → Option (γ → γ)
  onEnterBoth : σ → σ → Option (γ → γ)
  onEnterOne : σ → Option (γ → γ)

/-- The machine: the current state tag (`_state`) and the mutable data
fields of the table-context object (`_context` / `_table` data). -/
structure Fsm (σ : Type u) (γ : Type v) where
  state : σ
  ctx : γ
deriving DecidableEq, Repr

/-- Overload resolution for an event dispatch, per the overload pattern:
an exact (state, event) registration beats the wildcard-source
registration for the same event; with neither, the call is ill-formed. -/
def resolveEvent (t : Table σ ε γ) (s : σ) (e : ε) : Option (Handler σ γ) :=
  match t.exactEvent s e with
  | some h => some h
  | none => t.anyEvent e

/-- One dispatch call of the public surface: `poll()` or
`processEvent(e)`. -/
inductive DispatchCall (ε : Type w) where
  | pollStep
  | eventStep (e : ε)

namespace Vfsm

/-- Embeds `Fsm::handleOnExitEnter` of src/vfsm/vfsm.hpp (lines 183-205).
If the current state already holds the new state's alternative, nothing
happens.  Otherwise the exit hook of the current state runs, tried first
as (currentState, newState, OnExit) then as (currentState, OnExit), and
then the enter hook of the new state runs, tried as
(newState, currentState, OnEnter) then (newState, OnEnter).  Returns the
rewritten context data and the log of hook invocations, in order. -/
def handleOnExitEnter [DecidableEq σ] (t : Table σ ε γ) (current newState : σ)
    (c : γ) : γ × List (HookCall σ) :=
  if newState = current then
    (c, [])
  else
    let ex : γ × List (HookCall σ) :=
      match t.onExitBoth current newState with
      | some h => (h c, [HookCall.exitBoth current newState])
      | none =>
        match t.onExitOne current with
        | some h => (h c, [HookCall.exitOne current])
        | none => (c, [])
    let en : γ × List (HookCall σ) :=
      match t.onEnterBoth newState current with
      | some h => (h ex.1, [HookCall.enterBoth newState current])
      | none =>
        match t.onEnterOne newState with
        | some h => (h ex.1, [HookCall.enterOne newState])
        | none => (ex.1, [])
    (en.1, ex.2 ++ en.2)

/-- Embeds `Fsm::processEvent` of src/vfsm/vfsm.hpp (lines 136-160).
Resolves the handler for (current state, event); if it produces a state,
the handler runs first, then handleOnExitEnter, then the new state is
committed; a void handler just runs; with no handler the call returns
false and the machine is untouched.  Result: the boolean the C++ call
returns, the machine afterwards, and the hook log. -/
def processEvent [DecidableEq σ] (t : Table σ ε γ) (m : Fsm σ γ) (e : ε) :
    Bool × Fsm σ γ × List (HookCall σ) :=
  match resolveEvent t m.state e with
  | some (Handler.toState f) =>
    let r := f m.ctx
    let he := handleOnExitEnter t m.state r.1 r.2
    (true, ⟨r.1, he.1⟩, he.2)
  | some (Handler.effect f) =>
    (true, ⟨m.state, f m.ctx⟩, [])
  | none =>
    (false, m, [])

/-- Embeds `Fsm::poll` of src/vfsm/vfsm.hpp (lines 113-134): like
processEvent but the handler is keyed by the current state alone. -/
def poll [DecidableEq σ] (t : Table σ ε γ) (m : Fsm σ γ) :
    Bool × Fsm σ γ × List (HookCall σ) :=
  match t.onPoll m.state with
  | some (Handler.toState f) =>
    let r := f m.ctx
    let he := handleOnExitEnter t m.state r.1 r.2
    (true, ⟨r.1, he.1⟩, he.2)
  | some (Handler.effect f) =>
    (true, ⟨m.state, f m.ctx⟩, [])
  | none =>
    (false, m, [])

/-- Embeds the constructor `Fsm::Fsm` of src/vfsm/vfsm.hpp (lines
99-111): store the initial state, then fire its enter hook, tried first
as (s, s, OnEnter), then as (s, OnEnter), else nothing.  No exit hook
runs. -/
def mkFsm (t : Table σ ε γ) (initialState : σ) (c : γ) :
    Fsm σ γ × List (HookCall σ) :=
  match t.onEnterBoth initialState initialState with
  | some h => (⟨initialState, h c⟩, [HookCall.enterBoth initialState initialState])
  | none =>
    match t.onEnterOne initialState with
    | some h => (⟨initialState, h c⟩, [HookCall.enterOne initialState])
    | none => (⟨initialState, c⟩, [])

/-- One public dispatch call. -/
def step [DecidableEq σ] (t : Table σ ε γ) (m : Fsm σ γ) :
    DispatchCall ε → Bool × Fsm σ γ × List (HookCall σ)
  | DispatchCall.pollStep => poll t m
  | DispatchCall.eventStep e => processEvent t m e

/-- A finite sequence of dispatch calls run in order: the booleans
returned, the final machine, and the concatenated hook log. -/
def run [DecidableEq σ] (t : Table σ ε γ) (m : Fsm σ γ) :
    List (DispatchCall ε) → List Bool × Fsm σ γ × List (HookCall σ)
  | [] => ([], m, [])
  | d :: ds =>
    let r := step t m d
    let rest := run t r.2.1 ds
    (r.1 :: rest.1, rest.2.1, r.2.2 ++ rest.2.2)

/-- Embeds the move-assignment reset pattern
`sm = Fsm{Context{}, Init{}};`: a fresh machine is constructed (firing
its initial enter hook) and replaces the old machine wholesale; the
defaulted destructor and move-assignment fire no hook for the replaced
machine, so the old machine contributes nothing to the log. -/
def assignFresh (_old : Fsm σ γ) (t : Table σ ε γ) (initialState : σ)
    (c : γ) : Fsm σ γ × List (HookCall σ) :=
  mkFsm t initialState c

end Vfsm

namespace FsmVariant

/-- Embeds `Fsm::handleOnExitEnter` of src/fsm_variant.hpp (lines
170-195); the body is, up to the `_table` member name and two local type
aliases, the same as the vfsm one. -/
def handleOnExitEnter [DecidableEq σ] (t : Table σ ε γ) (current newState : σ)
    (c : γ) : γ × List (HookCall σ) :=
  if newState = current then
    (c, [])
  else
    let ex : γ × List (HookCall σ) :=
      match t.onExitBoth current newState with
      | some h => (h c, [HookCall.exitBoth current newState])
      | none =>
        match t.onExitOne current with
        | some h => (h c, [HookCall.exitOne current])
        | none => (c, [])
    let en : γ × List (HookCall σ) :=
      match t.onEnterBoth newState current with
      | some h => (h ex.1, [HookCall.enterBoth newState current])
      | none =>
        match t.onEnterOne newState with
        | some h => (h ex.1, [HookCall.enterOne newState])
        | none => (ex.1, [])
    (en.1, ex.2 ++ en.2)

/-- Embeds `Fsm::processEvent` of src/fsm_variant.hpp (lines 137-162);
identical constexpr branch cascade to the vfsm engine (the vfsm version
forwards the event, which does not change value semantics). -/
def processEvent [DecidableEq σ] (t : Table σ ε γ) (m : Fsm σ γ) (e : ε) :
    Bool × Fsm σ γ × List (HookCall σ) :=
  match resolveEvent t m.state e with
  | some (Handler.toState f) =>
    let r := f m.ctx
    let he := handleOnExitEnter t m.state r.1 r.2
    (true, ⟨r.1, he.1⟩, he.2)
  | some (Handler.effect f) =>
    (true, ⟨m.state, f m.ctx⟩, [])
  | none =>
    (false, m, [])

/-- Embeds `Fsm::poll` of src/fsm_variant.hpp (lines 114-135). -/
def poll [DecidableEq σ] (t : Table σ ε γ) (m : Fsm σ γ) :
    Bool × Fsm σ γ × List (HookCall σ) :=
  match t.onPoll m.state with
  | some (Handler.toState f) =>
    let r := f m.ctx
    let he := handleOnExitEnter t m.state r.1 r.2
    (true, ⟨r.1, he.1⟩, he.2)
  | some (Handler.effect f) =>
    (true, ⟨m.state, f m.ctx⟩, [])
  | none =>
    (false, m, [])

/-- Embeds the constructor `Fsm::Fsm` of src/fsm_variant.hpp (lines
99-112). -/
def mkFsm (t : Table σ ε γ) (initialState : σ) (c : γ) :
    Fsm σ γ × List (HookCall σ) :=
  match t.onEnterBoth initialState initialState with
  | some h => (⟨initialState, h c⟩, [HookCall.enterBoth initialState initialState])
  | none =>
    match t.onEnterOne initialState with
    | some h => (⟨initialState, h c⟩, [HookCall.enterOne initialState])
    | none => (⟨initialState, c⟩, [])

/-- One public dispatch call of the fsm_variant engine. -/
def step [DecidableEq σ] (t : Table σ ε γ) (m : Fsm σ γ) :
    DispatchCall ε → Bool × Fsm σ γ × List (HookCall σ)
  | DispatchCall.pollStep => poll t m
  | DispatchCall.eventStep e => processEvent t m e

/-- A finite sequence of dispatch calls run through the fsm_variant
engine. -/
def run [DecidableEq σ] (t : Table σ ε γ) (m : Fsm σ γ) :
    List (DispatchCall ε) → List Bool × Fsm σ γ × List (HookCall σ)
  | [] => ([], m, [])
  | d :: ds =>
    let r := step t m d
    let rest := run t r.2.1 ds
    (r.1 :: rest.1, rest.2.1, r.2.2 ++ rest.2.2)

end FsmVariant

/-- Specification-side exit-hook resolution, written from the spec's
words (section 4.4): (a) the hook keyed by (leaving, arriving, OnExit),
else (b) the hook keyed by (leaving, OnExit), else (c) no-op.  Yields
the context transformer actually applied and the invocation it logs. -/
def exitResolution (t : Table σ ε γ) (leaving arriving : σ) :
    (γ → γ) × List (HookCall σ) :=
  match t.onExitBoth leaving arriving with
  | some h => (h, [HookCall.exitBoth leaving arriving])
  | none =>
    match t.onExitOne leaving with
    | some h => (h, [HookCall.exitOne leaving])
    | none => (id, [])

/-- Specification-side enter-hook resolution, mirrored: (a) the hook
keyed by (arriving, leaving, OnEnter), else (b) (arriving, OnEnter),
else (c) no-op. -/
def enterResolution (t : Table σ ε γ) (arriving leaving : σ) :
    (γ → γ) × List (HookCall σ) :=
  match t.onEnterBoth arriving leaving with
  | some h => (h, [HookCall.enterBoth arriving leaving])
  | none =>
    match t.onEnterOne arriving with
    | some h => (h, [HookCall.enterOne arriving])
    | none => (id, [])

namespace Demo

/-- States of src/unnamed/part_001 (namespace Local). -/
inductive St where
  | Init
  | Run
  | Fail
  | Done
  | Wait
deriving DecidableEq, Repr

/-- Events of src/unnamed/part_001 (namespace Ev). -/
inductive Ev where
  | Process
  | Reset
deriving DecidableEq, Repr

/-- The mutable data of Local::FsmContext: `struct Context { int counter
= 0; bool is_fail = false; };`.  The scenario only default-initializes
and increments the counter, so Int carries it faithfully. -/
structure Ctx where
  counter : Int
  is_fail : Bool
deriving DecidableEq, Repr

/-- The default-constructed Context (counter 0, is_fail false), the
value written by `ctx = {}`. -/
def Ctx.reset : Ctx := ⟨0, false⟩

/-- The transition table of Local::FsmContext::operator()() in
src/unnamed/part_001 (lines 32-60), overload by overload:

* (Init, Process) -> Run, no context change (the puts is I/O only);
* (Run, Process) -> variant of Run, Done, Fail: pre-increment the
  counter; when it reaches 5, go to Fail if is_fail else Done; otherwise
  the default-constructed variant, whose first alternative is Run;
* (Done, Process) -> Done and (Fail, Process) -> Fail, self loops;
* (auto, Reset) -> Init, the wildcard-source reset;
* (Run) poll handler returning void (pure effect);
* enter and exit hooks are all three-argument forms with a wildcard
  second state: exact ones for Init and Run, plus fully generic
  (auto, auto) fallbacks, so every pair resolves a three-argument hook;
  Init's enter hook performs `ctx = {}`, the others only print. -/
def demoTable : Table St Ev Ctx where
  exactEvent s e :=
    match s, e with
    | St.Init, Ev.Process => some (Handler.toState fun c => (St.Run, c))
    | St.Run, Ev.Process => some (Handler.toState fun c =>
        let c' : Ctx := { c with counter := c.counter + 1 }
        if c'.counter = 5 then
          if c'.is_fail then (St.Fail, c') else (St.Done, c')
        else
          (St.Run, c'))
    | St.Done, Ev.Process => some (Handler.toState fun c => (St.Done, c))
    | St.Fail, Ev.Process => some (Handler.toState fun c => (St.Fail, c))
    | _, _ => none
  anyEvent e :=
    match e with
    | Ev.Reset => some (Handler.toState fun c => (St.Init, c))
    | Ev.Process => none
  onPoll s :=
    match s with
    | St.Run => some (Handler.effect fun c => c)
    | _ => none
  onExitBoth _ _ := some fun c => c
  onExitOne _ := none
  onEnterBoth s _ :=
    match s with
    | St.Init => some fun _ => Ctx.reset
    | _ => some fun c => c
  onEnterOne _ := none

end Demo

/-- A synthetic single-state table whose only event handler is a void
(pure side effect) one, exercising the third constexpr branch of
processEvent; the context counts the invocations. -/
def effectTable : Table Unit Unit Nat where
  exactEvent _ _ := some (Handler.effect fun n => n + 1)
  anyEvent _ := none
  onPoll _ := none
  onExitBoth _ _ := none
  onExitOne _ := none
  onEnterBoth _ _ := none
  onEnterOne _ := none

namespace Sample

/-- States of the usage sample in the vfsm.hpp doc comment (lines
49-51). -/
inductive SState where
  | Idle
  | Run
  | Finish
deriving DecidableEq, Repr

/-- Events of the usage sample (lines 53-55). -/
inductive SEv where
  | EvStart
  | EvStop
  | EvReset
deriving DecidableEq, Repr

/-- The sample transition table of the vfsm.hpp doc comment (lines
57-70): the context datum is the `run` flag; Idle+EvStart goes to Run
setting the flag, Run+EvStop goes to Finish, any state resets to Idle
on EvReset, and polling Run runs the variant<Run, Finish> handler that
stays in Run (the default-constructed first alternative) while the flag
is set and moves to Finish once it is cleared.  No hooks are
registered. -/
def sampleTable : Table SState SEv Bool where
  exactEvent s e :=
    match s, e with
    | SState.Idle, SEv.EvStart => some (Handler.toState fun _ => (SState.Run, true))
    | SState.Run, SEv.EvStop => some (Handler.toState fun b => (SState.Finish, b))
    | _, _ => none
  anyEvent e :=
    match e with
    | SEv.EvReset => some (Handler.toState fun b => (SState.Idle, b))
    | _ => none
  onPoll s :=
    match s with
    | SState.Run => some (Handler.toState fun b =>
        if b then (SState.Run, b) else (SState.Finish, b))
    | _ => none
  onExitBoth _ _ := none
  onExitOne _ := none
  onEnterBoth _ _ := none
  onEnterOne _ := none

end Sample

/-- The property that the handler resolved for (s, e), whenever it
produces a state, produces exactly the state s it was invoked on
(or is a pure effect, or is absent). -/
def keepsState (t : Table σ ε γ) (s : σ) (e : ε) : Prop :=
  ∀ (c : γ) (f : γ → σ × γ),
    resolveEvent t s e = some (Handler.toState f) → (f c).1 = s

/-- The same property for one public dispatch call: for a poll, the
poll handler keyed on s, whenever it produces a state, produces s
itself; for an event, `keepsState` for that event. -/
def keepsStateCall (t : Table σ ε γ) (s : σ) : DispatchCall ε → Prop
  | DispatchCall.pollStep =>
    ∀ (c : γ) (g : γ → σ × γ),
      t.onPoll s = some (Handler.toState g) → (g c).1 = s
  | DispatchCall.eventStep e => keepsState t s e

theorem Vfsm.handleOnExitEnter_self [DecidableEq σ] (t : Table σ ε γ) (s : σ)
    (c : γ) : Vfsm.handleOnExitEnter t s s c = (c, []) := by
  simp [Vfsm.handleOnExitEnter]

theorem Vfsm.handleOnExitEnter_of_ne [DecidableEq σ] (t : Table σ ε γ)
    (current newState : σ) (c : γ) (h : newState ≠ current) :
    Vfsm.handleOnExitEnter t current newState c =
      ((enterResolution t newState current).1 ((exitResolution t current newState).1 c),
       (exitResolution t current newState).2 ++ (enterResolution t newState current).2) := by
  unfold Vfsm.handleOnExitEnter exitResolution enterResolution
  rw [if_neg h]
  cases t.onExitBoth current newState <;>
    cases t.onExitOne current <;>
      cases t.onEnterBoth newState current <;>
        cases t.onEnterOne newState <;> rfl

theorem Vfsm.processEvent_eq_of_change [DecidableEq σ] (t : Table σ ε γ)
    (m : Fsm σ γ) (e : ε) (f : γ → σ × γ)
    (hres : resolveEvent t m.state e = some (Handler.toState f))
    (hne : (f m.ctx).1 ≠ m.state) :
    Vfsm.processEvent t m e =
      (true,
       ⟨(f m.ctx).1,
        (enterResolution t (f m.ctx).1 m.state).1
          ((exitResolution t m.state (f m.ctx).1).1 (f m.ctx).2)⟩,
       (exitResolution t m.state (f m.ctx).1).2 ++
         (enterResolution t (f m.ctx).1 m.state).2) := by
  simp only [Vfsm.processEvent, hres, Vfsm.handleOnExitEnter_of_ne t m.state (f m.ctx).1
    (f m.ctx).2 hne]

theorem Vfsm.processEvent_eq_of_keep [DecidableEq σ] (t : Table σ ε γ)
    (m : Fsm σ γ) (e : ε) (f : γ → σ × γ)
    (hres : resolveEvent t m.state e = some (Handler.toState f))
    (heq : (f m.ctx).1 = m.state) :
    Vfsm.processEvent t m e = (true, ⟨m.state, (f m.ctx).2⟩, []) := by
  simp only [Vfsm.processEvent, hres]
  rw [heq, Vfsm.handleOnExitEnter_self]

theorem exitResolution_countP_isExit (t : Table σ ε γ) (l a : σ)
    (h : (t.onExitBoth l a).isSome = true ∨ (t.onExitOne l).isSome = true) :
    List.countP HookCall.isExit (exitResolution t l a).2 = 1 := by
  unfold exitResolution
  cases hb : t.onExitBoth l a with
  | some x => simp [List.countP, List.countP.go, HookCall.isExit]
  | none =>
    cases ho : t.onExitOne l with
    | some x => simp [List.countP, List.countP.go, HookCall.isExit]
    | none => rw [hb, ho] at h; simp at h

theorem exitResolution_countP_isEnter (t : Table σ ε γ) (l a : σ) :
    List.countP HookCall.isEnter (exitResolution t l a).2 = 0 := by
  unfold exitResolution
  cases t.onExitBoth l a with
  | some x => simp [List.countP, List.countP.go, HookCall.isEnter]
  | none =>
    cases t.onExitOne l with
    | some x => simp [List.countP, List.countP.go, HookCall.isEnter]
    | none => rfl

theorem enterResolution_countP_isEnter (t : Table σ ε γ) (a l : σ)
    (h : (t.onEnterBoth a l).isSome = true ∨ (t.onEnterOne a).isSome = true) :
    List.countP HookCall.isEnter (enterResolution t a l).2 = 1 := by
  unfold enterResolution
  cases hb : t.onEnterBoth a l with
  | some x => simp [List.countP, List.countP.go, HookCall.isEnter]
  | none =>
    cases ho : t.onEnterOne a with
    | some x => simp [List.countP, List.countP.go, HookCall.isEnter]
    | none => rw [hb, ho] at h; simp at h

theorem enterResolution_countP_isExit (t : Table σ ε γ) (a l : σ) :
    List.countP HookCall.isExit (enterResolution t a l).2 = 0 := by
  unfold enterResolution
  cases t.onEnterBoth a l with
  | some x => simp [List.countP, List.countP.go, HookCall.isExit]
  | none =>
    cases t.onEnterOne a with
    | some x => simp [List.countP, List.countP.go, HookCall.isExit]
    | none => rfl

theorem Vfsm.mkFsm_eq_enterResolution (t : Table σ ε γ) (initialState : σ)
    (c : γ) :
    Vfsm.mkFsm t initialState c =
      (⟨initialState, (enterResolution t initialState initialState).1 c⟩,
       (enterResolution t initialState initialState).2) := by
  unfold Vfsm.mkFsm enterResolution
  cases t.onEnterBoth initialState initialState <;>
    cases t.onEnterOne initialState <;> rfl

theorem Vfsm.processEvent_keep [DecidableEq σ] (t : Table σ ε γ) (s : σ)
    (e : ε) (H : keepsState t s e) (m : Fsm σ γ) (hm : m.state = s) :
    (Vfsm.processEvent t m e).2.1.state = s ∧
      (Vfsm.processEvent t m e).2.2 = [] := by
  cases hr : resolveEvent t s e with
  | none =>
    simp [Vfsm.processEvent, hm, hr]
  | some hd =>
    cases hd with
    | toState f =>
      have h := H m.ctx f hr
      simp [Vfsm.processEvent, hm, hr, h, Vfsm.handleOnExitEnter_self]
    | effect f =>
      simp [Vfsm.processEvent, hm, hr]

theorem Vfsm.poll_eq_of_change [DecidableEq σ] (t : Table σ ε γ)
    (m : Fsm σ γ) (g : γ → σ × γ)
    (hres : t.onPoll m.state = some (Handler.toState g))
    (hne : (g m.ctx).1 ≠ m.state) :
    Vfsm.poll t m =
      (true,
       ⟨(g m.ctx).1,
        (enterResolution t (g m.ctx).1 m.state).1
          ((exitResolution t m.state (g m.ctx).1).1 (g m.ctx).2)⟩,
       (exitResolution t m.state (g m.ctx).1).2 ++
         (enterResolution t (g m.ctx).1 m.state).2) := by
  simp only [Vfsm.poll, hres, Vfsm.handleOnExitEnter_of_ne t m.state (g m.ctx).1
    (g m.ctx).2 hne]

theorem Vfsm.poll_keep [DecidableEq σ] (t : Table σ ε γ) (s : σ)
    (Hp : ∀ (c : γ) (g : γ → σ × γ),
      t.onPoll s = some (Handler.toState g) → (g c).1 = s)
    (m : Fsm σ γ) (hm : m.state = s) :
    (Vfsm.poll t m).2.1.state = s ∧ (Vfsm.poll t m).2.2 = [] := by
  cases hr : t.onPoll s with
  | none =>
    simp [Vfsm.poll, hm, hr]
  | some hd =>
    cases hd with
    | toState g =>
      have h := Hp m.ctx g hr
      simp [Vfsm.poll, hm, hr, h, Vfsm.handleOnExitEnter_self]
    | effect g =>
      simp [Vfsm.poll, hm, hr]

theorem Vfsm.step_keep [DecidableEq σ] (t : Table σ ε γ) (s : σ)
    (d : DispatchCall ε) (Hd : keepsStateCall t s d)
    (m : Fsm σ γ) (hm : m.state = s) :
    (Vfsm.step t m d).2.1.state = s ∧ (Vfsm.step t m d).2.2 = [] := by
  cases d with
  | pollStep => exact Vfsm.poll_keep t s Hd m hm
  | eventStep e => exact Vfsm.processEvent_keep t s e Hd m hm

theorem Vfsm.run_keep [DecidableEq σ] (t : Table σ ε γ) (s : σ) :
    ∀ (calls : List (DispatchCall ε)),
      (∀ d ∈ calls, keepsStateCall t s d) →
      ∀ (m : Fsm σ γ), m.state = s →
        (Vfsm.run t m calls).2.1.state = s ∧
        (Vfsm.run t m calls).2.2 = [] := by
  intro calls
  induction calls with
  | nil => exact fun _ m hm => ⟨hm, rfl⟩
  | cons d ds ih =>
    intro H m hm
    have h1 := Vfsm.step_keep t s d (H d (List.mem_cons_self d ds)) m hm
    have h2 := ih (fun d' hd' => H d' (List.mem_cons_of_mem d hd'))
      (Vfsm.step t m d).2.1 h1.1
    simp only [Vfsm.run]
    refine ⟨h2.1, ?_⟩
    rw [h1.2, h2.2]
    rfl

theorem FsmVariant.handleOnExitEnter_agree [DecidableEq σ] (t : Table σ ε γ)
    (current newState : σ) (c : γ) :
    FsmVariant.handleOnExitEnter t current newState c =
      Vfsm.handleOnExitEnter t current newState c := by
  unfold FsmVariant.handleOnExitEnter Vfsm.handleOnExitEnter
  rfl

theorem FsmVariant.step_agree [DecidableEq σ] (t : Table σ ε γ) (m : Fsm σ γ)
    (d : DispatchCall ε) : FsmVariant.step t m d = Vfsm.step t m d := by
  cases d with
  | pollStep =>
    show FsmVariant.poll t m = Vfsm.poll t m
    unfold FsmVariant.poll Vfsm.poll
    simp only [FsmVariant.handleOnExitEnter_agree]
  | eventStep e =>
    show FsmVariant.processEvent t m e = Vfsm.processEvent t m e
    unfold FsmVariant.processEvent Vfsm.processEvent
    simp only [FsmVariant.handleOnExitEnter_agree]

theorem FsmVariant.run_agree [DecidableEq σ] (t : Table σ ε γ) :
    ∀ (calls : List (DispatchCall ε)) (m : Fsm σ γ),
      FsmVariant.run t m calls = Vfsm.run t m calls := by
  intro calls
  induction calls with
  | nil => intro m; rfl
  | cons d ds ih =>
    intro m
    simp only [FsmVariant.run, Vfsm.run, FsmVariant.step_agree, ih]

/-- C1: if the handler resolved for the dispatched event always produces
the state it was invoked on (same identity), then no exit or enter hook
is invoked, for any number of consecutive such processEvent calls, and
the state never changes; conversely, a processEvent call that logs any
hook invocation resolved a state-producing handler whose produced state
differs from the pre-transition state. -/
theorem claim_C1_self_transition_never_fires_hooks [DecidableEq σ]
    (t : Table σ ε γ) (s : σ) (calls : List (DispatchCall ε))
    (H : ∀ d ∈ calls, keepsStateCall t s d) :
    (∀ c : γ,
       (Vfsm.run t ⟨s, c⟩ calls).2.1.state = s ∧
       (Vfsm.run t ⟨s, c⟩ calls).2.2 = []) ∧
    (∀ (m : Fsm σ γ) (e' : ε),
       (Vfsm.processEvent t m e').2.2 ≠ [] →
       ∃ f, resolveEvent t m.state e' = some (Handler.toState f) ∧
         (f m.ctx).1 ≠ m.state) ∧
    (∀ m : Fsm σ γ,
       (Vfsm.poll t m).2.2 ≠ [] →
       ∃ g, t.onPoll m.state = some (Handler.toState g) ∧
         (g m.ctx).1 ≠ m.state) := by
  refine ⟨?_, ?_, ?_⟩
  · intro c
    exact Vfsm.run_keep t s calls H ⟨s, c⟩ rfl
  · intro m e' htr
    cases hr : resolveEvent t m.state e' with
    | none => exact absurd (by simp [Vfsm.processEvent, hr]) htr
    | some hd =>
      cases hd with
      | toState f =>
        refine ⟨f, rfl, ?_⟩
        intro heq
        exact htr (by simp [Vfsm.processEvent, hr, heq, Vfsm.handleOnExitEnter_self])
      | effect f => exact absurd (by simp [Vfsm.processEvent, hr]) htr
  · intro m htr
    cases hr : t.onPoll m.state with
    | none => exact absurd (by simp [Vfsm.poll, hr]) htr
    | some hd =>
      cases hd with
      | toState g =>
        refine ⟨g, rfl, ?_⟩
        intro heq
        exact htr (by simp [Vfsm.poll, hr, heq, Vfsm.handleOnExitEnter_self])
      | effect g => exact absurd (by simp [Vfsm.poll, hr]) htr

/-- C1 witness: from Done the demo table has no poll handler and its
Done+Process handler always returns Done; a poll followed by two Process
dispatches keeps the state Done and logs no hook invocation. -/
theorem claim_C1_witness :
    (∀ d ∈ [DispatchCall.pollStep, DispatchCall.eventStep Demo.Ev.Process,
        DispatchCall.eventStep Demo.Ev.Process],
       keepsStateCall Demo.demoTable Demo.St.Done d) ∧
    (Vfsm.run Demo.demoTable ⟨Demo.St.Done, Demo.Ctx.reset⟩
       [DispatchCall.pollStep, DispatchCall.eventStep Demo.Ev.Process,
        DispatchCall.eventStep Demo.Ev.Process]).2.1.state = Demo.St.Done ∧
    (Vfsm.run Demo.demoTable ⟨Demo.St.Done, Demo.Ctx.reset⟩
       [DispatchCall.pollStep, DispatchCall.eventStep Demo.Ev.Process,
        DispatchCall.eventStep Demo.Ev.Process]).2.2 = [] := by
  have Hev : keepsState Demo.demoTable Demo.St.Done Demo.Ev.Process := by
    intro c f hf
    rw [show resolveEvent Demo.demoTable Demo.St.Done Demo.Ev.Process =
      some (Handler.toState fun c => (Demo.St.Done, c)) from rfl] at hf
    injection hf with h
    injection h with h2
    rw [← h2]
  have H : ∀ d ∈ [DispatchCall.pollStep, DispatchCall.eventStep Demo.Ev.Process,
      DispatchCall.eventStep Demo.Ev.Process],
      keepsStateCall Demo.demoTable Demo.St.Done d := by
    intro d hd
    simp only [List.mem_cons, List.not_mem_nil, or_false] at hd
    rcases hd with rfl | rfl | rfl
    · intro c g hg
      exact Option.noConfusion hg
    · exact Hev
    · exact Hev
  have h := (claim_C1_self_transition_never_fires_hooks Demo.demoTable
    Demo.St.Done _ H).1 Demo.Ctx.reset
  exact ⟨H, h.1, h.2⟩

/-- C2: when the table registers neither an exact (state, event) handler
nor a wildcard-source handler for the event, processEvent returns false
and leaves the machine (state and context) untouched, logging no hook;
likewise poll when no handler is keyed on the current state. -/
theorem claim_C2_unhandled_leaves_machine_unchanged [DecidableEq σ]
    (t : Table σ ε γ) (m : Fsm σ γ) (e : ε)
    (hex : t.exactEvent m.state e = none) (hany : t.anyEvent e = none) :
    Vfsm.processEvent t m e = (false, m, []) ∧
    (t.onPoll m.state = none → Vfsm.poll t m = (false, m, [])) := by
  have hr : resolveEvent t m.state e = none := by
    simp [resolveEvent, hex, hany]
  exact ⟨by simp [Vfsm.processEvent, hr], fun hp => by simp [Vfsm.poll, hp]⟩

/-- C2 witness: the demo table has no handler for (Wait, Process), no
wildcard handler for Process, and no poll handler for Wait; both
dispatches return false and change nothing. -/
theorem claim_C2_witness :
    Demo.demoTable.exactEvent Demo.St.Wait Demo.Ev.Process = none ∧
    Demo.demoTable.anyEvent Demo.Ev.Process = none ∧
    Demo.demoTable.onPoll Demo.St.Wait = none ∧
    Vfsm.processEvent Demo.demoTable ⟨Demo.St.Wait, Demo.Ctx.reset⟩ Demo.Ev.Process =
      (false, ⟨Demo.St.Wait, Demo.Ctx.reset⟩, []) ∧
    Vfsm.poll Demo.demoTable ⟨Demo.St.Wait, Demo.Ctx.reset⟩ =
      (false, ⟨Demo.St.Wait, Demo.Ctx.reset⟩, []) := by
  have h := claim_C2_unhandled_leaves_machine_unchanged Demo.demoTable
    ⟨Demo.St.Wait, Demo.Ctx.reset⟩ Demo.Ev.Process rfl rfl
  exact ⟨rfl, rfl, rfl, h.1, h.2 rfl⟩

/-- C3: on every dispatch, processEvent or poll, whose resolved handler
produces a state of different identity, the call returns true, commits
the produced state, and its hook log is the resolved exit invocation
followed by the resolved enter invocation; the final context is the
enter hook applied to the exit hook's output (exit completes before
enter begins, both before the call returns); each resolved hook runs
exactly once whenever one is registered. -/
theorem claim_C3_exit_runs_once_before_enter [DecidableEq σ]
    (t : Table σ ε γ) (m : Fsm σ γ) :
    (∀ (e : ε) (f : γ → σ × γ),
       resolveEvent t m.state e = some (Handler.toState f) →
       (f m.ctx).1 ≠ m.state →
       Vfsm.processEvent t m e =
         (true,
          ⟨(f m.ctx).1,
           (enterResolution t (f m.ctx).1 m.state).1
             ((exitResolution t m.state (f m.ctx).1).1 (f m.ctx).2)⟩,
          (exitResolution t m.state (f m.ctx).1).2 ++
            (enterResolution t (f m.ctx).1 m.state).2) ∧
       (((t.onExitBoth m.state (f m.ctx).1).isSome = true ∨
           (t.onExitOne m.state).isSome = true) →
          List.countP HookCall.isExit (Vfsm.processEvent t m e).2.2 = 1) ∧
       (((t.onEnterBoth (f m.ctx).1 m.state).isSome = true ∨
           (t.onEnterOne (f m.ctx).1).isSome = true) →
          List.countP HookCall.isEnter (Vfsm.processEvent t m e).2.2 = 1)) ∧
    (∀ (g : γ → σ × γ),
       t.onPoll m.state = some (Handler.toState g) →
       (g m.ctx).1 ≠ m.state →
       Vfsm.poll t m =
         (true,
          ⟨(g m.ctx).1,
           (enterResolution t (g m.ctx).1 m.state).1
             ((exitResolution t m.state (g m.ctx).1).1 (g m.ctx).2)⟩,
          (exitResolution t m.state (g m.ctx).1).2 ++
            (enterResolution t (g m.ctx).1 m.state).2) ∧
       (((t.onExitBoth m.state (g m.ctx).1).isSome = true ∨
           (t.onExitOne m.state).isSome = true) →
          List.countP HookCall.isExit (Vfsm.poll t m).2.2 = 1) ∧
       (((t.onEnterBoth (g m.ctx).1 m.state).isSome = true ∨
           (t.onEnterOne (g m.ctx).1).isSome = true) →
          List.countP HookCall.isEnter (Vfsm.poll t m).2.2 = 1)) := by
  constructor
  · intro e f hres hne
    have hmain := Vfsm.processEvent_eq_of_change t m e f hres hne
    refine ⟨hmain, ?_, ?_⟩
    · intro hreg
      rw [hmain]
      simp only [List.countP_append,
        exitResolution_countP_isExit t m.state (f m.ctx).1 hreg,
        enterResolution_countP_isExit t (f m.ctx).1 m.state]
    · intro hreg
      rw [hmain]
      simp only [List.countP_append,
        exitResolution_countP_isEnter t m.state (f m.ctx).1,
        enterResolution_countP_isEnter t (f m.ctx).1 m.state hreg]
  · intro g hres hne
    have hmain := Vfsm.poll_eq_of_change t m g hres hne
    refine ⟨hmain, ?_, ?_⟩
    · intro hreg
      rw [hmain]
      simp only [List.countP_append,
        exitResolution_countP_isExit t m.state (g m.ctx).1 hreg,
        enterResolution_countP_isExit t (g m.ctx).1 m.state]
    · intro hreg
      rw [hmain]
      simp only [List.countP_append,
        exitResolution_countP_isEnter t m.state (g m.ctx).1,
        enterResolution_countP_isEnter t (g m.ctx).1 m.state hreg]

/-- C3 witness, both entry points.  Event side: in the demo,
Init+Process produces Run and the dispatch logs the Init exit invocation
then the Run enter invocation, exactly one of each.  Poll side: in the
doc-comment sample at Run with the flag cleared, polling produces
Finish, which is committed with the (hook-free) exit-then-enter
resolution. -/
theorem claim_C3_witness :
    resolveEvent Demo.demoTable Demo.St.Init Demo.Ev.Process =
      some (Handler.toState fun c => (Demo.St.Run, c)) ∧
    Vfsm.processEvent Demo.demoTable ⟨Demo.St.Init, Demo.Ctx.reset⟩ Demo.Ev.Process =
      (true, ⟨Demo.St.Run, Demo.Ctx.reset⟩,
       [HookCall.exitBoth Demo.St.Init Demo.St.Run,
        HookCall.enterBoth Demo.St.Run Demo.St.Init]) ∧
    Sample.sampleTable.onPoll Sample.SState.Run =
      some (Handler.toState fun b =>
        if b then (Sample.SState.Run, b) else (Sample.SState.Finish, b)) ∧
    Vfsm.poll Sample.sampleTable ⟨Sample.SState.Run, false⟩ =
      (true, ⟨Sample.SState.Finish, false⟩, []) := by
  have he := ((claim_C3_exit_runs_once_before_enter Demo.demoTable
    ⟨Demo.St.Init, Demo.Ctx.reset⟩).1 Demo.Ev.Process
    (fun c => (Demo.St.Run, c)) rfl (by decide)).1
  have hp := ((claim_C3_exit_runs_once_before_enter Sample.sampleTable
    ⟨Sample.SState.Run, false⟩).2
    (fun b => if b then (Sample.SState.Run, b) else (Sample.SState.Finish, b))
    rfl (by decide)).1
  exact ⟨rfl, he, rfl, hp⟩

/-- C4: when the resolved handler is one producing a candidate among
the listed states, the alternative actually produced is committed as the
current state: producing the incoming state's own identity keeps the
machine in that state with no hooks, producing any other listed
alternative transitions to it with the hook log of the real-change rule;
the same holds for poll. -/
theorem claim_C4_produced_alternative_decides_transition [DecidableEq σ]
    (t : Table σ ε γ) (m : Fsm σ γ) (e : ε) (f : γ → σ × γ)
    (hres : resolveEvent t m.state e = some (Handler.toState f)) :
    ((Vfsm.processEvent t m e).2.1.state = (f m.ctx).1) ∧
    ((f m.ctx).1 = m.state →
       Vfsm.processEvent t m e = (true, ⟨m.state, (f m.ctx).2⟩, [])) ∧
    ((f m.ctx).1 ≠ m.state →
       Vfsm.processEvent t m e =
         (true,
          ⟨(f m.ctx).1,
           (enterResolution t (f m.ctx).1 m.state).1
             ((exitResolution t m.state (f m.ctx).1).1 (f m.ctx).2)⟩,
          (exitResolution t m.state (f m.ctx).1).2 ++
            (enterResolution t (f m.ctx).1 m.state).2)) ∧
    (∀ g, t.onPoll m.state = some (Handler.toState g) →
       (Vfsm.poll t m).2.1.state = (g m.ctx).1 ∧
       ((g m.ctx).1 = m.state →
          Vfsm.poll t m = (true, ⟨m.state, (g m.ctx).2⟩, []))) := by
  refine ⟨?_, ?_, ?_, ?_⟩
  · by_cases hc : (f m.ctx).1 = m.state
    · rw [Vfsm.processEvent_eq_of_keep t m e f hres hc, hc]
    · rw [Vfsm.processEvent_eq_of_change t m e f hres hc]
  · exact fun hc => Vfsm.processEvent_eq_of_keep t m e f hres hc
  · exact fun hc => Vfsm.processEvent_eq_of_change t m e f hres hc
  · intro g hg
    constructor
    · by_cases hc : (g m.ctx).1 = m.state
      · simp [Vfsm.poll, hg, hc, Vfsm.handleOnExitEnter_self]
      · simp [Vfsm.poll, hg,
          Vfsm.handleOnExitEnter_of_ne t m.state (g m.ctx).1 (g m.ctx).2 hc]
    · intro hc
      simp [Vfsm.poll, hg, hc, Vfsm.handleOnExitEnter_self]

/-- C4 witness: in the demo at state Run with counter 0, the Run+Process
handler produces the Run alternative again, so the machine stays in Run
(counter now 1) with an empty hook log. -/
theorem claim_C4_witness :
    resolveEvent Demo.demoTable Demo.St.Run Demo.Ev.Process =
      some (Handler.toState fun c =>
        let c' : Demo.Ctx := { c with counter := c.counter + 1 }
        if c'.counter = 5 then
          if c'.is_fail then (Demo.St.Fail, c') else (Demo.St.Done, c')
        else
          (Demo.St.Run, c')) ∧
    Vfsm.processEvent Demo.demoTable ⟨Demo.St.Run, Demo.Ctx.reset⟩ Demo.Ev.Process =
      (true, ⟨Demo.St.Run, ⟨1, false⟩⟩, []) := by
  have h := (claim_C4_produced_alternative_decides_transition Demo.demoTable
    ⟨Demo.St.Run, Demo.Ctx.reset⟩ Demo.Ev.Process
    (fun c =>
      let c' : Demo.Ctx := { c with counter := c.counter + 1 }
      if c'.counter = 5 then
        if c'.is_fail then (Demo.St.Fail, c') else (Demo.St.Done, c')
      else
        (Demo.St.Run, c')) rfl).2.1 (by decide)
  refine ⟨rfl, ?_⟩
  rw [h]
  decide

/-- C5: on a real transition (new identity differs from current) the
engine's hook phase equals the specification-side resolution: the exit
hook is resolved as (leaving, arriving, OnExit) else (leaving, OnExit)
else no-op, the enter hook as (arriving, leaving, OnEnter) else
(arriving, OnEnter) else no-op, the exit applied first, and the log is
the exit invocation followed by the enter invocation. -/
theorem claim_C5_hook_resolution_order [DecidableEq σ] (t : Table σ ε γ)
    (current newState : σ) (c : γ) (h : newState ≠ current) :
    Vfsm.handleOnExitEnter t current newState c =
      ((enterResolution t newState current).1 ((exitResolution t current newState).1 c),
       (exitResolution t current newState).2 ++ (enterResolution t newState current).2) :=
  Vfsm.handleOnExitEnter_of_ne t current newState c h

/-- C5 witness: the demo transition from Init to Run resolves the
three-argument exit and enter hooks. -/
theorem claim_C5_witness :
    (Demo.St.Run ≠ Demo.St.Init) ∧
    Vfsm.handleOnExitEnter Demo.demoTable Demo.St.Init Demo.St.Run Demo.Ctx.reset =
      (Demo.Ctx.reset,
       [HookCall.exitBoth Demo.St.Init Demo.St.Run,
        HookCall.enterBoth Demo.St.Run Demo.St.Init]) := by
  have h := claim_C5_hook_resolution_order Demo.demoTable Demo.St.Init
    Demo.St.Run Demo.Ctx.reset (by decide)
  exact ⟨by decide, h⟩

/-- C6: constructing a machine with any initial state performs exactly
the entry-hook resolution for that state with leaving and arriving both
equal to it — (initial, initial, OnEnter), else (initial, OnEnter), else
no-op — logging no exit invocation and exactly one enter invocation
whenever an enter hook is registered for that lookup. -/
theorem claim_C6_construction_fires_initial_entry (t : Table σ ε γ)
    (initialState : σ) (c : γ) :
    Vfsm.mkFsm t initialState c =
      (⟨initialState, (enterResolution t initialState initialState).1 c⟩,
       (enterResolution t initialState initialState).2) ∧
    List.countP HookCall.isExit (Vfsm.mkFsm t initialState c).2 = 0 ∧
    (((t.onEnterBoth initialState initialState).isSome = true ∨
        (t.onEnterOne initialState).isSome = true) →
       List.countP HookCall.isEnter (Vfsm.mkFsm t initialState c).2 = 1) := by
  have hmain := Vfsm.mkFsm_eq_enterResolution t initialState c
  refine ⟨hmain, ?_, ?_⟩
  · rw [hmain]
    exact enterResolution_countP_isExit t initialState initialState
  · intro hreg
    rw [hmain]
    exact enterResolution_countP_isEnter t initialState initialState hreg

/-- C6 witness: constructing the demo machine in Init resets the context
and logs exactly the (Init, Init, OnEnter) invocation. -/
theorem claim_C6_witness :
    Vfsm.mkFsm Demo.demoTable Demo.St.Init ⟨7, true⟩ =
      (⟨Demo.St.Init, Demo.Ctx.reset⟩,
       [HookCall.enterBoth Demo.St.Init Demo.St.Init]) ∧
    List.countP HookCall.isExit
      (Vfsm.mkFsm Demo.demoTable Demo.St.Init ⟨7, true⟩).2 = 0 ∧
    List.countP HookCall.isEnter
      (Vfsm.mkFsm Demo.demoTable Demo.St.Init ⟨7, true⟩).2 = 1 := by
  have h := claim_C6_construction_fires_initial_entry Demo.demoTable
    Demo.St.Init (⟨7, true⟩ : Demo.Ctx)
  exact ⟨h.1, h.2.1, h.2.2 (Or.inl rfl)⟩

/-- C7: processEvent returns true exactly when a handler resolves for
the current state and the event; in particular a resolved pure
side-effect handler still yields true, runs only the handler, keeps the
current state and logs no hook. -/
theorem claim_C7_handled_iff_handler_found [DecidableEq σ]
    (t : Table σ ε γ) (m : Fsm σ γ) (e : ε) :
    ((Vfsm.processEvent t m e).1 = (resolveEvent t m.state e).isSome) ∧
    (∀ f, resolveEvent t m.state e = some (Handler.effect f) →
       Vfsm.processEvent t m e = (true, ⟨m.state, f m.ctx⟩, [])) := by
  constructor
  · cases hr : resolveEvent t m.state e with
    | none => simp [Vfsm.processEvent, hr]
    | some hd => cases hd <;> simp [Vfsm.processEvent, hr]
  · intro f hf
    simp [Vfsm.processEvent, hf]

/-- C7 witness: on the synthetic void-handler table the dispatch reports
handled, bumps the context by the handler's side effect, keeps the state
and fires no hook. -/
theorem claim_C7_witness :
    (Vfsm.processEvent effectTable ⟨(), 0⟩ ()).1 = true ∧
    Vfsm.processEvent effectTable ⟨(), 0⟩ () = (true, ⟨(), 1⟩, []) := by
  have h := claim_C7_handled_iff_handler_found effectTable ⟨(), 0⟩ ()
  exact ⟨h.1.trans rfl, h.2 (fun n => n + 1) rfl⟩

/-- C8: replacing a machine wholesale by a freshly constructed one is
exactly the fresh construction — it logs no exit invocation at all (in
particular none for the replaced instance's current state) and the new
instance's initial entry resolution (which its construction performs);
an event-driven reset through processEvent instead logs the outgoing
state's exit invocation followed by the incoming state's enter
invocation. -/
theorem claim_C8_replacement_bypasses_exit [DecidableEq σ]
    (old : Fsm σ γ) (t : Table σ ε γ) (initialState : σ) (c : γ) :
    Vfsm.assignFresh old t initialState c = Vfsm.mkFsm t initialState c ∧
    List.countP HookCall.isExit (Vfsm.assignFresh old t initialState c).2 = 0 ∧
    (Vfsm.assignFresh old t initialState c).2 =
      (enterResolution t initialState initialState).2 ∧
    (∀ (e : ε) (f : γ → σ × γ),
       resolveEvent t old.state e = some (Handler.toState f) →
       (f old.ctx).1 ≠ old.state →
       (Vfsm.processEvent t old e).2.2 =
         (exitResolution t old.state (f old.ctx).1).2 ++
           (enterResolution t (f old.ctx).1 old.state).2) := by
  refine ⟨rfl, ?_, ?_, ?_⟩
  · show List.countP HookCall.isExit (Vfsm.mkFsm t initialState c).2 = 0
    rw [Vfsm.mkFsm_eq_enterResolution t initialState c]
    exact enterResolution_countP_isExit t initialState initialState
  · show (Vfsm.mkFsm t initialState c).2 =
      (enterResolution t initialState initialState).2
    rw [Vfsm.mkFsm_eq_enterResolution t initialState c]
  · intro e f hres hne
    rw [Vfsm.processEvent_eq_of_change t old e f hres hne]

/-- C8 witness: replacing a demo machine sitting in Done by a fresh
Init machine logs only the initial enter invocation and no exit; routing
the wildcard Reset event through processEvent from Done instead logs
Done's exit then Init's enter. -/
theorem claim_C8_witness :
    Vfsm.assignFresh (⟨Demo.St.Done, ⟨5, false⟩⟩ : Fsm Demo.St Demo.Ctx)
        Demo.demoTable Demo.St.Init Demo.Ctx.reset =
      (⟨Demo.St.Init, Demo.Ctx.reset⟩,
       [HookCall.enterBoth Demo.St.Init Demo.St.Init]) ∧
    List.countP HookCall.isExit
      (Vfsm.assignFresh (⟨Demo.St.Done, ⟨5, false⟩⟩ : Fsm Demo.St Demo.Ctx)
        Demo.demoTable Demo.St.Init Demo.Ctx.reset).2 = 0 ∧
    (Vfsm.processEvent Demo.demoTable
        (⟨Demo.St.Done, ⟨5, false⟩⟩ : Fsm Demo.St Demo.Ctx) Demo.Ev.Reset).2.2 =
      [HookCall.exitBoth Demo.St.Done Demo.St.Init,
       HookCall.enterBoth Demo.St.Init Demo.St.Done] := by
  have h := claim_C8_replacement_bypasses_exit
    (⟨Demo.St.Done, ⟨5, false⟩⟩ : Fsm Demo.St Demo.Ctx)
    Demo.demoTable Demo.St.Init Demo.Ctx.reset
  refine ⟨h.1, h.2.1, ?_⟩
  have h4 := h.2.2.2 Demo.Ev.Reset (fun c => (Demo.St.Init, c)) rfl (by decide)
  exact h4

/-- C9: the counter pass/fail demo (src/unnamed/part_001): construction
in Init resets the counter; the first Process moves to Run with counter
0; four more keep Run with the counter reaching 4; the sixth Process
with the fault flag false moves to Done, and with the fault flag true
moves to Fail. -/
theorem claim_C9_counter_scenario :
    (Vfsm.mkFsm Demo.demoTable Demo.St.Init Demo.Ctx.reset).1 =
      ⟨Demo.St.Init, Demo.Ctx.reset⟩ ∧
    (Vfsm.run Demo.demoTable ⟨Demo.St.Init, Demo.Ctx.reset⟩
       (List.replicate 1 (DispatchCall.eventStep Demo.Ev.Process))).2.1 =
      ⟨Demo.St.Run, ⟨0, false⟩⟩ ∧
    (Vfsm.run Demo.demoTable ⟨Demo.St.Init, Demo.Ctx.reset⟩
       (List.replicate 5 (DispatchCall.eventStep Demo.Ev.Process))).2.1 =
      ⟨Demo.St.Run, ⟨4, false⟩⟩ ∧
    (Vfsm.run Demo.demoTable ⟨Demo.St.Init, Demo.Ctx.reset⟩
       (List.replicate 6 (DispatchCall.eventStep Demo.Ev.Process))).2.1 =
      ⟨Demo.St.Done, ⟨5, false⟩⟩ ∧
    (Vfsm.processEvent Demo.demoTable ⟨Demo.St.Run, ⟨4, true⟩⟩
       Demo.Ev.Process).2.1 = ⟨Demo.St.Fail, ⟨5, true⟩⟩ := by
  refine ⟨rfl, ?_, ?_, ?_, ?_⟩ <;> decide

/-- C10: the vfsm.hpp engine and the fsm_variant.hpp engine are
behaviorally equivalent: construction agrees, and for every table,
initial machine and finite sequence of poll/processEvent calls the two
engines return the same booleans, log the same hook sequence and end in
the same machine. -/
theorem claim_C10_engines_equivalent [DecidableEq σ] (t : Table σ ε γ)
    (initialState : σ) (c : γ) (m : Fsm σ γ)
    (calls : List (DispatchCall ε)) :
    FsmVariant.mkFsm t initialState c = Vfsm.mkFsm t initialState c ∧
    FsmVariant.run t m calls = Vfsm.run t m calls := by
  exact ⟨rfl, FsmVariant.run_agree t calls m⟩
